import Mathlib

/-!
Parallel-Search (`search.c`): a shallow embedding.

The program splits an `int` array of `size` elements among `num_threads`
worker threads, every worker scans its slice for `num_search` and adds one to
a mutex-protected counter on each match.

* C `int` values are modelled as `Int`; every `+`, `-`, `*`, `/` of the source
  is followed by `wrap32` (wrap-around to 32 bits, in two-complement form), `/` and
  `%` are the truncating `Int.tdiv` and `Int.tmod`.
* `rand()` is modelled by the list of values it returns, in call order.
* The worker threads are modelled by a step function on a global state
  (array, counter, mutex owner, one local state per thread); a schedule is the
  list of thread ids in the order in which they take a step.  The read and the
  write of `*counter = *counter + 1` are two separate steps.
-/

namespace ParallelSearch

/-! ## Machine integers and constants -/

/-- Line 13: the constant `LOWER`, defined as 0. -/
def LOWER : Int := 0

/-- Line 14: the constant `UPPER`, defined as 999. -/
def UPPER : Int := 999

/-- Largest value of a 32-bit `int`. -/
def INT_MAX : Int := 2147483647

/-- Smallest value of a 32-bit `int`. -/
def INT_MIN : Int := -2147483648

/-- Wrap-around of a mathematical integer to a 32-bit `int` (two-complement). -/
def wrap32 (x : Int) : Int := (x + 2147483648) % 4294967296 - 2147483648

/-! ## `main`: argument checks and partitioning (lines 47-53, 56-94) -/

/-- The two range checks of `main` (lines 47-53): `true` when
`print_error_and_exit` is called. -/
def main_usage_error (size num_omit num_threads num_search : Int) : Bool :=
  if num_omit < LOWER || num_omit > UPPER || num_search < LOWER || num_search > UPPER then
    true
  else if size < 0 || num_threads > size then
    true
  else
    false

/-- The value fields of `params_t`.  The pointer fields `counter`, `array` and
`lock` point to the shared state (`state_t` below); the barrier only separates
the set-up from the scan and is not modelled. -/
structure params_t where
  size : Int
  offset : Int
  num_search : Int
deriving DecidableEq, Repr

/-- Line 78: `int partition_size = size / num_threads;` -/
def partition_size (size num_threads : Int) : Int :=
  wrap32 (Int.tdiv size num_threads)

/-- Line 79: `int last_partition = partition_size + (size % num_threads);` -/
def last_partition (size num_threads : Int) : Int :=
  wrap32 (partition_size size num_threads + Int.tmod size num_threads)

/-- Lines 83, 87, 88: the fields `main` stores in `params[i]`. -/
def main_params (size num_threads num_search i : Int) : params_t :=
  { size := if i = wrap32 (num_threads - 1) then last_partition size num_threads
            else partition_size size num_threads
    offset := wrap32 (partition_size size num_threads * i)
    num_search := num_search }

/-- Results of the library calls `main` makes before it partitions the array:
the return values of `pthread_mutex_init` and `pthread_barrier_init`, and
whether `calloc` returned `NULL`. -/
structure env_t where
  mutex_init : Int
  barrier_init : Int
  calloc_null : Bool

/-- A run of the library calls in which every call succeeds. -/
def env_ok : env_t := { mutex_init := 0, barrier_init := 0, calloc_null := false }

/-- How the set-up part of `main` (lines 47-94) ends. -/
inductive setup_t where
  | usage_error
  | mutex_failed
  | barrier_failed
  | alloc_failed
  | division_by_zero
  | spawned (params : List params_t)
deriving DecidableEq, Repr

/-- Lines 47-94 of `main`: the range checks, the initialisation of mutex and
barrier, the allocation, the division `size / num_threads` (undefined for a
zero divisor) and the loop that fills `params[0 .. num_threads-1]`. -/
def main_setup (env : env_t) (size num_omit num_threads num_search : Int) : setup_t :=
  if main_usage_error size num_omit num_threads num_search then setup_t.usage_error
  else if env.mutex_init ≠ 0 then setup_t.mutex_failed
  else if env.barrier_init ≠ 0 then setup_t.barrier_failed
  else if env.calloc_null then setup_t.alloc_failed
  else if num_threads = 0 then setup_t.division_by_zero
  else setup_t.spawned
    ((List.range num_threads.toNat).map fun i => main_params size num_threads num_search i)

/-! ## `rando` and the generation loop (lines 97-100, 174-177) -/

/-- The function `rando` (lines 174-177; `omitted` is its argument `omit`), on
the list of the values the next calls of `rand()` return: the result and the
values not yet consumed, or `none` when every value of the list is rejected
(the call has not returned). -/
def rando (omitted : Int) : List Int → Option (Int × List Int)
  | [] => none
  | r :: rs =>
    let val := Int.tmod r (wrap32 (UPPER + 1))
    if val ≠ omitted then some (val, rs) else rando omitted rs

/-- Lines 98-100: `for(int i = 0; i < size; i++) array[i] = rando(num_omit);`
for the `count` remaining iterations. -/
def main_generate (num_omit : Int) : Nat → List Int → Option (List Int × List Int)
  | 0, rs => some ([], rs)
  | count + 1, rs =>
    match rando num_omit rs with
    | none => none
    | some (v, rest) =>
      match main_generate num_omit count rest with
      | none => none
      | some (vs, rest2) => some (v :: vs, rest2)

/-! ## `run`: the worker threads (lines 182-201) -/

/-- Control points of a worker between two of its steps. -/
inductive pc_t where
  /-- released by the barrier, before `int i = input->offset` -/
  | start
  /-- before the loop test `i < input->offset + input->size` -/
  | test
  /-- before `pthread_mutex_lock(input->lock)` -/
  | lock
  /-- before the read of `*(input->counter)` -/
  | load
  /-- before the write of `*(input->counter)` -/
  | store
  /-- before `pthread_mutex_unlock(input->lock)` -/
  | unlock
  /-- after `return NULL` -/
  | done
  /-- after a read of `input->array[i]` outside the allocated array -/
  | fault
deriving DecidableEq, Repr

/-- Local variables of a worker: the loop index `i`, the control point, and the
value read from the counter that the pending write will use. -/
structure local_t where
  i : Int
  pc : pc_t
  tmp : Int
deriving DecidableEq, Repr

/-- The memory shared by the workers and the local state of every worker.
`lock` is the owner of the mutex, if it is held. -/
structure state_t where
  array : List Int
  counter : Int
  lock : Option Nat
  locals : Nat → local_t

/-- The read `input->array[i]`: `none` outside the allocated array. -/
def read (array : List Int) (i : Int) : Option Int :=
  if 0 ≤ i then array[i.toNat]? else none

/-- Replace the local state of thread `t`. -/
def set_local (f : Nat → local_t) (t : Nat) (l : local_t) : Nat → local_t :=
  fun u => if u = t then l else f u

/-- One step of the worker `tid` running `run` with argument `input`
(lines 193-200). Every step makes at most one access to the shared memory;
the operations on the local `i` (the loop test, `i++`) are taken together with
the neighbouring access. A worker that calls `pthread_mutex_lock` while the
mutex is held stays where it is. -/
def run_step (input : params_t) (tid : Nat) (s : state_t) : state_t :=
  let l := s.locals tid
  match l.pc with
  | pc_t.start =>
    { s with locals := set_local s.locals tid { l with i := input.offset, pc := pc_t.test } }
  | pc_t.test =>
    if l.i < wrap32 (input.offset + input.size) then
      match read s.array l.i with
      | none => { s with locals := set_local s.locals tid { l with pc := pc_t.fault } }
      | some v =>
        if v = input.num_search then
          { s with locals := set_local s.locals tid { l with pc := pc_t.lock } }
        else
          { s with locals := set_local s.locals tid { l with i := wrap32 (l.i + 1) } }
    else
      { s with locals := set_local s.locals tid { l with pc := pc_t.done } }
  | pc_t.lock =>
    match s.lock with
    | none => { s with lock := some tid,
                       locals := set_local s.locals tid { l with pc := pc_t.load } }
    | some _ => s
  | pc_t.load =>
    { s with locals := set_local s.locals tid { l with tmp := s.counter, pc := pc_t.store } }
  | pc_t.store =>
    { s with counter := wrap32 (l.tmp + 1),
             locals := set_local s.locals tid { l with pc := pc_t.unlock } }
  | pc_t.unlock =>
    { s with lock := none,
             locals := set_local s.locals tid { l with i := wrap32 (l.i + 1), pc := pc_t.test } }
  | pc_t.done => s
  | pc_t.fault => s

/-- The state when the barrier releases the workers: the array is filled,
`counter` is `0` (line 71), the mutex is free, every worker is at `start`. -/
def init_state (array : List Int) : state_t :=
  { array := array, counter := 0, lock := none,
    locals := fun _ => { i := 0, pc := pc_t.start, tmp := 0 } }

/-- One step of the system: thread `t` (one of the `num_threads` threads `main`
created with `params[t]`) takes a step. -/
def step (size num_threads num_search : Int) (s : state_t) (t : Nat) : state_t :=
  if (t : Int) < num_threads then
    run_step (main_params size num_threads num_search t) t s
  else s

/-- Run the threads in the order given by the schedule. -/
def exec (size num_threads num_search : Int) (s : state_t) (sched : List Nat) : state_t :=
  sched.foldl (step size num_threads num_search) s

/-- Every worker has returned (all the `pthread_join` calls of lines 110-115
return). -/
def all_done (num_threads : Int) (s : state_t) : Bool :=
  (List.range num_threads.toNat).all fun t => decide ((s.locals t).pc = pc_t.done)

/-- Number of writes to the counter performed along a schedule: the steps taken
by a thread that stands before its write. -/
def stores_issued (size num_threads num_search : Int) : state_t → List Nat → Nat
  | _, [] => 0
  | s, t :: ts =>
    (if (t : Int) < num_threads ∧ (s.locals t).pc = pc_t.store then 1 else 0)
      + stores_issued size num_threads num_search (step size num_threads num_search s t) ts

/-! ## Specification-side notions used by the proofs -/

/-- Number of elements equal to `tgt` among the elements of index below `k`. -/
def matches_before (a : List Int) (tgt : Int) (k : Int) : Int :=
  ((a.take k.toNat).count tgt : Nat)

/-- The control points between `pthread_mutex_lock` and
`pthread_mutex_unlock`. -/
def in_cs : pc_t → Bool
  | pc_t.load => true
  | pc_t.store => true
  | pc_t.unlock => true
  | _ => false

/-- The control points at which a counted match has not been written yet. -/
def pending : pc_t → Bool
  | pc_t.lock => true
  | pc_t.load => true
  | pc_t.store => true
  | _ => false

/-- Number of writes to the counter a worker has performed, read off its local
state: the matches below its index, plus one between its write and the
increment of the index. -/
def contrib (a : List Int) (p : params_t) (l : local_t) : Int :=
  match l.pc with
  | pc_t.start => 0
  | pc_t.unlock =>
    matches_before a p.num_search l.i - matches_before a p.num_search p.offset + 1
  | _ => matches_before a p.num_search l.i - matches_before a p.num_search p.offset

/-- What holds of the local state of a worker with argument `p` at each
control point. -/
def local_inv (a : List Int) (p : params_t) (l : local_t) : Prop :=
  match l.pc with
  | pc_t.start => True
  | pc_t.test => p.offset ≤ l.i ∧ l.i ≤ p.offset + p.size
  | pc_t.done => l.i = p.offset + p.size
  | pc_t.fault => False
  | _ => p.offset ≤ l.i ∧ l.i < p.offset + p.size ∧ read a l.i = some p.num_search

/-- What ties the local state of worker `t` to the mutex and the counter: in
the critical section it owns the mutex, and before its write the value it read
is still the value of the counter. -/
def shared_inv (counter : Int) (lock : Option Nat) (t : Nat) (l : local_t) : Prop :=
  (in_cs l.pc = true → lock = some t) ∧ (l.pc = pc_t.store → l.tmp = counter)

/-- The invariant of the scan phase for the configuration `size`, `w`, `tgt`
and the array `a`. -/
structure Inv (size w tgt : Int) (a : List Int) (s : state_t) : Prop where
  array_eq : s.array = a
  locals_ok : ∀ t : Nat, (t : Int) < w → local_inv a (main_params size w tgt t) (s.locals t)
  shared_ok : ∀ t : Nat, (t : Int) < w → shared_inv s.counter s.lock t (s.locals t)
  owner_ok : ∀ u : Nat, s.lock = some u → (u : Int) < w ∧ in_cs (s.locals u).pc = true
  counter_eq : s.counter
    = ∑ t ∈ Finset.range w.toNat, contrib a (main_params size w tgt t) (s.locals t)

/-- An accepted configuration with at least one worker (`size` an `int`), and
an array of `size` elements. -/
structure Cfg (size w : Int) (a : List Int) : Prop where
  one_le : 1 ≤ w
  le_size : w ≤ size
  size_le : size ≤ INT_MAX
  length_eq : (a.length : Int) = size

/-- Steps a worker still has to take before it is done (an upper bound that
decreases with every step the worker takes). -/
def remaining (p : params_t) (l : local_t) : Int :=
  match l.pc with
  | pc_t.start => 6 * p.size + 2
  | pc_t.test => 6 * (p.offset + p.size - l.i) + 1
  | pc_t.lock => 6 * (p.offset + p.size - l.i)
  | pc_t.load => 6 * (p.offset + p.size - l.i) - 1
  | pc_t.store => 6 * (p.offset + p.size - l.i) - 2
  | pc_t.unlock => 6 * (p.offset + p.size - l.i) - 3
  | pc_t.done => 0
  | pc_t.fault => 0

/-- Sum of `remaining` over the workers. -/
def total_remaining (size w tgt : Int) (s : state_t) : Int :=
  ∑ t ∈ Finset.range w.toNat, remaining (main_params size w tgt t) (s.locals t)

/-! ## Machine arithmetic -/

theorem wrap32_range (x : Int) : INT_MIN ≤ wrap32 x ∧ wrap32 x ≤ INT_MAX := by
  unfold wrap32 INT_MIN INT_MAX; omega

theorem wrap32_id (x : Int) (h1 : -2147483648 ≤ x) (h2 : x ≤ 2147483647) : wrap32 x = x := by
  unfold wrap32; omega

/-- Facts about the quotient and remainder `main` computes on an accepted
configuration with at least one worker. -/
theorem quot_facts (size w : Int) (h1 : 1 ≤ w) (h2 : w ≤ size) :
    1 ≤ size / w ∧ 0 ≤ size % w ∧ size % w < w ∧ w * (size / w) + size % w = size
      ∧ size / w ≤ size ∧ size / w + size % w ≤ size := by
  have hw : 0 < w := by omega
  have hr0 : 0 ≤ size % w := Int.emod_nonneg _ (by omega)
  have hr1 : size % w < w := Int.emod_lt_of_pos _ hw
  have hd : w * (size / w) + size % w = size := Int.ediv_add_emod size w
  have hq : 1 ≤ size / w := by
    by_contra hlt
    have hq0 : size / w ≤ 0 := by omega
    have : w * (size / w) ≤ 0 := Int.mul_nonpos_of_nonneg_of_nonpos (by omega) hq0
    omega
  have hqw : size / w ≤ w * (size / w) := by nlinarith
  exact ⟨hq, hr0, hr1, hd, by omega, by omega⟩

theorem mul_index_le (q w i : Int) (hq : 0 ≤ q) (hi : i ≤ w) : q * i ≤ q * w :=
  Int.mul_le_mul_of_nonneg_left hi hq

theorem partition_size_eq (size w : Int) (h1 : 1 ≤ w) (h2 : w ≤ size) (h3 : size ≤ INT_MAX) :
    partition_size size w = size / w := by
  obtain ⟨hq, hr0, hr1, hd, hqs, hqr⟩ := quot_facts size w h1 h2
  unfold INT_MAX at h3
  unfold partition_size
  rw [Int.tdiv_eq_ediv (by omega) (by omega)]
  exact wrap32_id _ (by omega) (by omega)

theorem last_partition_eq (size w : Int) (h1 : 1 ≤ w) (h2 : w ≤ size) (h3 : size ≤ INT_MAX) :
    last_partition size w = size / w + size % w := by
  obtain ⟨hq, hr0, hr1, hd, hqs, hqr⟩ := quot_facts size w h1 h2
  unfold last_partition
  rw [partition_size_eq size w h1 h2 h3, Int.tmod_eq_emod (by omega) (by omega)]
  unfold INT_MAX at h3
  exact wrap32_id _ (by omega) (by omega)

theorem params_offset_eq (size w tgt i : Int) (h1 : 1 ≤ w) (h2 : w ≤ size) (h3 : size ≤ INT_MAX)
    (hi0 : 0 ≤ i) (hi : i < w) :
    (main_params size w tgt i).offset = size / w * i := by
  obtain ⟨hq, hr0, hr1, hd, hqs, hqr⟩ := quot_facts size w h1 h2
  have hm : size / w * i ≤ size / w * w := mul_index_le _ _ _ (by omega) (by omega)
  have hm0 : 0 ≤ size / w * i := Int.mul_nonneg (by omega) hi0
  have hc : size / w * w = w * (size / w) := Int.mul_comm _ _
  show wrap32 (partition_size size w * i) = _
  rw [partition_size_eq size w h1 h2 h3]
  unfold INT_MAX at h3
  exact wrap32_id _ (by omega) (by omega)

theorem params_size_eq (size w tgt i : Int) (h1 : 1 ≤ w) (h2 : w ≤ size) (h3 : size ≤ INT_MAX) :
    (main_params size w tgt i).size
      = if i = w - 1 then size / w + size % w else size / w := by
  show (if i = wrap32 (w - 1) then last_partition size w else partition_size size w) = _
  unfold INT_MAX at h3
  rw [wrap32_id (w - 1) (by omega) (by omega), partition_size_eq size w h1 h2 (by unfold INT_MAX; omega),
    last_partition_eq size w h1 h2 (by unfold INT_MAX; omega)]

/-- End of the slice of worker `i`: the offset of the next worker, or `size`
for the last worker. -/
theorem params_end_eq (size w tgt i : Int) (h1 : 1 ≤ w) (h2 : w ≤ size) (h3 : size ≤ INT_MAX)
    (hi0 : 0 ≤ i) (hi : i < w) :
    (main_params size w tgt i).offset + (main_params size w tgt i).size
      = if i = w - 1 then size else size / w * (i + 1) := by
  obtain ⟨hq, hr0, hr1, hd, hqs, hqr⟩ := quot_facts size w h1 h2
  rw [params_offset_eq size w tgt i h1 h2 h3 hi0 hi, params_size_eq size w tgt i h1 h2 h3]
  by_cases hl : i = w - 1
  · simp only [hl, if_true]
    have : size / w * (w - 1) = w * (size / w) - size / w := by ring
    omega
  · simp only [hl, if_false]
    ring

theorem params_bounds (size w tgt i : Int) (h1 : 1 ≤ w) (h2 : w ≤ size) (h3 : size ≤ INT_MAX)
    (hi0 : 0 ≤ i) (hi : i < w) :
    0 ≤ (main_params size w tgt i).offset
      ∧ (main_params size w tgt i).offset
          ≤ (main_params size w tgt i).offset + (main_params size w tgt i).size
      ∧ (main_params size w tgt i).offset + (main_params size w tgt i).size ≤ size := by
  obtain ⟨hq, hr0, hr1, hd, hqs, hqr⟩ := quot_facts size w h1 h2
  have hsz := params_size_eq size w tgt i h1 h2 h3
  have he := params_end_eq size w tgt i h1 h2 h3 hi0 hi
  have ho := params_offset_eq size w tgt i h1 h2 h3 hi0 hi
  have hm0 : 0 ≤ size / w * i := Int.mul_nonneg (by omega) hi0
  refine ⟨by omega, ?_, ?_⟩
  · rw [hsz]; split <;> omega
  · rw [he]
    split
    · omega
    · have hm : size / w * (i + 1) ≤ size / w * w := mul_index_le _ _ _ (by omega) (by omega)
      have hc : size / w * w = w * (size / w) := Int.mul_comm _ _
      omega


/-- Telescoping over the slices: for every function `g` of the index, the sum
over the workers of `g (end of slice) - g (start of slice)` is
`g size - g 0`. -/
theorem slices_telescope (size w tgt : Int) (h1 : 1 ≤ w) (h2 : w ≤ size) (h3 : size ≤ INT_MAX)
    (g : Int → Int) :
    (∑ t ∈ Finset.range w.toNat,
        (g ((main_params size w tgt t).offset + (main_params size w tgt t).size)
          - g (main_params size w tgt t).offset))
      = g size - g 0 := by
  have key : ∀ t ∈ Finset.range w.toNat,
      (g ((main_params size w tgt t).offset + (main_params size w tgt t).size)
          - g (main_params size w tgt t).offset)
        = (fun k : Nat => g (if (k : Int) < w then size / w * k else size)) (t + 1)
          - (fun k : Nat => g (if (k : Int) < w then size / w * k else size)) t := by
    intro t ht
    have htw : (t : Int) < w := by
      have := Finset.mem_range.mp ht
      omega
    rw [params_end_eq size w tgt t h1 h2 h3 (by omega) htw,
      params_offset_eq size w tgt t h1 h2 h3 (by omega) htw]
    simp only [htw, if_true]
    by_cases hl : (t : Int) = w - 1
    · have : ¬ (((t + 1 : Nat) : Int) < w) := by push_cast; omega
      simp only [hl, this, if_true, if_false]
    · have : (((t + 1 : Nat) : Int) < w) := by push_cast; omega
      simp only [hl, this, if_true, if_false]
      push_cast
      rfl
  refine (Finset.sum_congr rfl key).trans
    ((Finset.sum_range_sub (fun k : Nat => g (if (k : Int) < w then size / w * k else size))
      w.toNat).trans ?_)
  have hn : ¬ (((w.toNat : Nat) : Int) < w) := by omega
  have h0 : ((0 : Nat) : Int) < w := by simp; omega
  simp only [hn, h0, if_true, if_false]
  simp

/-! ## Claims about the range checks of `main` -/

/-- C4: the range checks of `main` call `print_error_and_exit` exactly when one
of `array_size ≥ 0`, `0 ≤ num_omit ≤ 999`, `0 ≤ num_search ≤ 999`,
`num_threads ≤ array_size` is violated; when all four hold the checks are
passed. -/
theorem range_checks_iff (array_size num_omit num_threads num_search : Int) :
    main_usage_error array_size num_omit num_threads num_search = false
      ↔ (0 ≤ array_size ∧ (0 ≤ num_omit ∧ num_omit ≤ 999)
          ∧ (0 ≤ num_search ∧ num_search ≤ 999) ∧ num_threads ≤ array_size) := by
  unfold main_usage_error LOWER UPPER
  simp only [Bool.or_eq_true, decide_eq_true_eq]
  constructor
  · intro h
    split at h
    · exact absurd h (by simp)
    · split at h
      · exact absurd h (by simp)
      · omega
  · intro h
    rw [if_neg (by omega), if_neg (by omega)]

/-- C5 (the code at the failing input): with `size = 0` and `num_threads = 0`
the range checks of `main` do not report a usage error and, when the library
calls succeed (`calloc` does not return `NULL`), `main` reaches the division
`size / num_threads` with a zero divisor; the same happens for `size = 5`. -/
theorem zero_workers_reach_division :
    main_usage_error 0 0 0 0 = false
      ∧ main_setup env_ok 0 0 0 0 = setup_t.division_by_zero
      ∧ main_usage_error 5 0 0 0 = false
      ∧ main_setup env_ok 5 0 0 0 = setup_t.division_by_zero := by
  decide

/-- The check of `main` does reject whenever `workers > size` or `size < 0`. -/
theorem range_check_rejects (size num_omit workers num_search : Int)
    (h : workers > size ∨ size < 0) :
    main_usage_error size num_omit workers num_search = true := by
  unfold main_usage_error
  by_cases hc : (num_omit < LOWER || num_omit > UPPER || num_search < LOWER
      || num_search > UPPER) = true
  · rw [if_pos hc]
  · rw [if_neg hc]
    have : (decide (size < 0) || decide (workers > size)) = true := by
      simp only [Bool.or_eq_true, decide_eq_true_eq]
      omega
    rw [if_pos this]

/-- C6 (the code at the failing input): with `size = 5` and `workers = -1` the
check of `main` does not reject, although `workers` is negative; the same
holds for `size = 0`, `workers = -3`. -/
theorem negative_workers_accepted :
    main_usage_error 5 0 (-1) 0 = false ∧ main_usage_error 0 0 (-3) 0 = false := by
  decide

/-! ## Claims about the partitioning -/

/-- C1: for `size ≥ workers ≥ 1` (`size` an `int`), the (offset, size) pairs
`main` stores in `params[0 .. workers-1]` tile `[0, size)` in worker order: the
first offset is `0`, each next offset is the previous offset plus the previous
length, the last slice ends at `size`; hence every index of `[0, size)` lies in
exactly one slice, and the lengths sum to `size`. -/
theorem partitions_tile (size workers num_search : Int)
    (h1 : 1 ≤ workers) (h2 : workers ≤ size) (h3 : size ≤ INT_MAX) :
    (main_params size workers num_search 0).offset = 0
    ∧ (∀ i : Int, 0 ≤ i → i < workers - 1 →
        (main_params size workers num_search (i + 1)).offset
          = (main_params size workers num_search i).offset
            + (main_params size workers num_search i).size)
    ∧ (main_params size workers num_search (workers - 1)).offset
        + (main_params size workers num_search (workers - 1)).size = size
    ∧ (∀ j : Int, 0 ≤ j → j < size →
        ∃! i : Int, 0 ≤ i ∧ i < workers
          ∧ (main_params size workers num_search i).offset ≤ j
          ∧ j < (main_params size workers num_search i).offset
                + (main_params size workers num_search i).size)
    ∧ (∑ t ∈ Finset.range workers.toNat, (main_params size workers num_search t).size) = size := by
  obtain ⟨hq, hr0, hr1, hd, hqs, hqr⟩ := quot_facts size workers h1 h2
  have hoff := fun i => params_offset_eq size workers num_search i h1 h2 h3
  have hend := fun i => params_end_eq size workers num_search i h1 h2 h3
  refine ⟨?_, ?_, ?_, ?_, ?_⟩
  · rw [hoff 0 (by omega) (by omega)]; simp
  · intro i hi0 hi
    rw [hend i hi0 (by omega), hoff (i + 1) (by omega) (by omega), if_neg (by omega)]
  · rw [hend (workers - 1) (by omega) (by omega), if_pos rfl]
  · intro j hj0 hj
    -- the slices are ordered: a slice that ends at or before `j` lies below
    have ordered : ∀ a b : Int, 0 ≤ a → a < b → b < workers →
        (main_params size workers num_search a).offset
            + (main_params size workers num_search a).size
          ≤ (main_params size workers num_search b).offset := by
      intro a b ha hab hb
      rw [hend a ha (by omega), hoff b (by omega) hb, if_neg (by omega)]
      exact mul_index_le _ _ _ (by omega) (by omega)
    have hmain : ∃ i : Int, 0 ≤ i ∧ i < workers
          ∧ (main_params size workers num_search i).offset ≤ j
          ∧ j < (main_params size workers num_search i).offset
                + (main_params size workers num_search i).size := by
      by_cases hlast : size / workers * (workers - 1) ≤ j
      · refine ⟨workers - 1, by omega, by omega, ?_, ?_⟩
        · rw [hoff (workers - 1) (by omega) (by omega)]; exact hlast
        · rw [hend (workers - 1) (by omega) (by omega), if_pos rfl]; exact hj
      · have hq0 : 0 < size / workers := by omega
        have hjq0 : 0 ≤ j / (size / workers) := Int.ediv_nonneg hj0 (by omega)
        have hdj : size / workers * (j / (size / workers)) + j % (size / workers) = j :=
          Int.ediv_add_emod j (size / workers)
        have hjr0 : 0 ≤ j % (size / workers) := Int.emod_nonneg _ (by omega)
        have hjr1 : j % (size / workers) < size / workers := Int.emod_lt_of_pos _ hq0
        have hlt : j / (size / workers) < workers - 1 := by
          by_contra hge
          have : size / workers * (workers - 1) ≤ size / workers * (j / (size / workers)) :=
            mul_index_le _ _ _ (by omega) (by omega)
          omega
        refine ⟨j / (size / workers), hjq0, by omega, ?_, ?_⟩
        · rw [hoff _ hjq0 (by omega)]; omega
        · rw [hend _ hjq0 (by omega), if_neg (by omega)]
          have : size / workers * (j / (size / workers) + 1)
              = size / workers * (j / (size / workers)) + size / workers := by ring
          omega
    obtain ⟨i, hi0, hi, hlo, hhi⟩ := hmain
    refine ⟨i, ⟨hi0, hi, hlo, hhi⟩, ?_⟩
    rintro k ⟨hk0, hk, hklo, hkhi⟩
    by_contra hne
    rcases lt_or_gt_of_ne hne with hlt | hgt
    · have := ordered k i hk0 hlt hi
      omega
    · have := ordered i k hi0 hgt hk
      omega
  · have := slices_telescope size workers num_search h1 h2 h3 (fun x => x)
    simp only [add_sub_cancel_left, sub_zero] at this
    exact this

/-- C1 at `size = 10`, `workers = 3`: the offset of worker 1 is where worker 0
ends, the last slice ends at 10 and the lengths sum to 10. -/
theorem partitions_tile_witness :
    (1 : Int) ≤ 3 ∧ (3 : Int) ≤ 10 ∧ (10 : Int) ≤ INT_MAX
    ∧ (main_params 10 3 7 0).offset = 0
    ∧ (main_params 10 3 7 (0 + 1)).offset
        = (main_params 10 3 7 0).offset + (main_params 10 3 7 0).size
    ∧ (main_params 10 3 7 (3 - 1)).offset + (main_params 10 3 7 (3 - 1)).size = 10
    ∧ (∑ t ∈ Finset.range (3 : Int).toNat, (main_params 10 3 7 t).size) = 10 :=
  have h := partitions_tile 10 3 7 (by decide) (by decide) (by decide)
  ⟨by decide, by decide, by decide, h.1, h.2.1 0 (by decide) (by decide), h.2.2.1, h.2.2.2.2⟩

/-- C2: for `size ≥ workers ≥ 1` (`size` an `int`) and `base = size / workers`,
each of the first `workers - 1` slices has length `base`, the last has length
`base + size mod workers`, and slice `i` starts at `i * base`; for `size = 10`,
`workers = 3` the lengths are 3, 3, 4 and the offsets 0, 3, 6. -/
theorem partition_shape (size workers num_search : Int)
    (h1 : 1 ≤ workers) (h2 : workers ≤ size) (h3 : size ≤ INT_MAX) :
    (∀ i : Int, 0 ≤ i → i < workers - 1 →
        (main_params size workers num_search i).size = size / workers)
    ∧ (main_params size workers num_search (workers - 1)).size
        = size / workers + size % workers
    ∧ (∀ i : Int, 0 ≤ i → i < workers →
        (main_params size workers num_search i).offset = i * (size / workers))
    ∧ (List.range 3).map (fun i : Nat => (main_params 10 3 num_search i).size) = [3, 3, 4]
    ∧ (List.range 3).map (fun i : Nat => (main_params 10 3 num_search i).offset) = [0, 3, 6] := by
  refine ⟨?_, ?_, ?_, rfl, rfl⟩
  · intro i _ hi
    rw [params_size_eq size workers num_search i h1 h2 h3, if_neg (by omega)]
  · rw [params_size_eq size workers num_search _ h1 h2 h3, if_pos rfl]
  · intro i hi0 hi
    rw [params_offset_eq size workers num_search i h1 h2 h3 hi0 hi, Int.mul_comm]

/-- C2 at `size = 11`, `workers = 4`: lengths 2 and 2 + 3, offset of worker 3
is `3 * 2`. -/
theorem partition_shape_witness :
    (1 : Int) ≤ 4 ∧ (4 : Int) ≤ 11 ∧ (11 : Int) ≤ INT_MAX
    ∧ (main_params 11 4 7 1).size = 11 / 4
    ∧ (main_params 11 4 7 (4 - 1)).size = 11 / 4 + 11 % 4
    ∧ (main_params 11 4 7 3).offset = 3 * (11 / 4) :=
  have h := partition_shape 11 4 7 (by decide) (by decide) (by decide)
  ⟨by decide, by decide, by decide, h.1 1 (by decide) (by decide), h.2.1,
    h.2.2.1 3 (by decide) (by decide)⟩


/-! ## `rando` and the generated array -/

theorem rando_sound (omitted : Int) (rs : List Int) (v : Int) (rest : List Int)
    (hret : rando omitted rs = some (v, rest)) :
    (∃ r ∈ rs, v = Int.tmod r 1000) ∧ v ≠ omitted ∧ ∀ x ∈ rest, x ∈ rs := by
  induction rs with
  | nil => simp [rando] at hret
  | cons r rs ih =>
    unfold rando at hret
    have hw : wrap32 (UPPER + 1) = 1000 := by decide
    simp only [hw] at hret
    by_cases hv : Int.tmod r 1000 ≠ omitted
    · rw [if_pos hv] at hret
      simp only [Option.some.injEq, Prod.mk.injEq] at hret
      obtain ⟨rfl, rfl⟩ := hret
      exact ⟨⟨r, List.mem_cons_self _ _, rfl⟩, hv, fun x hx => List.mem_cons_of_mem _ hx⟩
    · rw [if_neg hv] at hret
      obtain ⟨⟨r0, hr0, hv0⟩, hne, hsub⟩ := ih hret
      exact ⟨⟨r0, List.mem_cons_of_mem _ hr0, hv0⟩, hne, fun x hx => List.mem_cons_of_mem _ (hsub x hx)⟩

/-- The call returns as soon as one of the values of `rand()` is accepted. -/
theorem rando_returns (omitted : Int) (rs : List Int)
    (h : ∃ r ∈ rs, Int.tmod r 1000 ≠ omitted) : (rando omitted rs).isSome = true := by
  induction rs with
  | nil => simp at h
  | cons r rs ih =>
    unfold rando
    have hw : wrap32 (UPPER + 1) = 1000 := by decide
    simp only [hw]
    by_cases hv : Int.tmod r 1000 ≠ omitted
    · rw [if_pos hv]; rfl
    · rw [if_neg hv]
      apply ih
      obtain ⟨r0, hr0, hv0⟩ := h
      rcases List.mem_cons.mp hr0 with rfl | hmem
      · exact absurd hv0 hv
      · exact ⟨r0, hmem, hv0⟩

theorem tmod_1000_range (r : Int) (h : 0 ≤ r) : 0 ≤ Int.tmod r 1000 ∧ Int.tmod r 1000 ≤ 999 := by
  rw [Int.tmod_eq_emod h (by decide)]
  omega

theorem generate_sound (num_omit : Int) (count : Nat) (rs arr rest : List Int)
    (hgen : main_generate num_omit count rs = some (arr, rest)) :
    arr.length = count ∧ (∀ x ∈ arr, x ≠ num_omit ∧ ∃ r ∈ rs, x = Int.tmod r 1000)
      ∧ ∀ x ∈ rest, x ∈ rs := by
  induction count generalizing rs arr rest with
  | zero =>
    simp only [main_generate, Option.some.injEq, Prod.mk.injEq] at hgen
    obtain ⟨rfl, rfl⟩ := hgen
    simp
  | succ n ih =>
    unfold main_generate at hgen
    cases h1 : rando num_omit rs with
    | none => simp [h1] at hgen
    | some res =>
      obtain ⟨v, rest1⟩ := res
      simp only [h1] at hgen
      cases h2 : main_generate num_omit n rest1 with
      | none => simp [h2] at hgen
      | some res2 =>
        obtain ⟨vs, rest2⟩ := res2
        simp only [h2, Option.some.injEq, Prod.mk.injEq] at hgen
        obtain ⟨rfl, rfl⟩ := hgen
        obtain ⟨hsrc, hne, hsub⟩ := rando_sound num_omit rs v rest1 h1
        obtain ⟨hlen, hall, hsub2⟩ := ih rest1 vs rest2 h2
        refine ⟨by simp [hlen], ?_, fun x hx => hsub x (hsub2 x hx)⟩
        intro x hx
        rcases List.mem_cons.mp hx with rfl | hmem
        · exact ⟨hne, hsrc⟩
        · obtain ⟨hx1, r, hr, hxr⟩ := hall x hmem
          exact ⟨hx1, r, hsub r hr, hxr⟩

/-- C7: for every omit value (in particular every one in `[0, 999]`) and every
list of non-negative values of `rand()` on which `rando` returns, the value `v`
it returns satisfies `0 ≤ v ≤ 999` and `v ≠ omit`; hence every element the
generation loop of `main` writes into the array lies in `[0, 999]` and differs
from `num_omit`. -/
theorem rando_avoids_omit (omitted : Int) (rs : List Int) (hnn : ∀ r ∈ rs, 0 ≤ r) :
    (∀ (v : Int) (rest : List Int), rando omitted rs = some (v, rest) →
        0 ≤ v ∧ v ≤ 999 ∧ v ≠ omitted)
    ∧ (∀ (count : Nat) (arr rest : List Int),
        main_generate omitted count rs = some (arr, rest) →
        ∀ x ∈ arr, 0 ≤ x ∧ x ≤ 999 ∧ x ≠ omitted) := by
  constructor
  · intro v rest hret
    obtain ⟨⟨r, hr, rfl⟩, hne, _⟩ := rando_sound omitted rs v rest hret
    have := tmod_1000_range r (hnn r hr)
    exact ⟨this.1, this.2, hne⟩
  · intro count arr rest hgen x hx
    obtain ⟨_, hall, _⟩ := generate_sound omitted count rs arr rest hgen
    obtain ⟨hne, r, hr, rfl⟩ := hall x hx
    have := tmod_1000_range r (hnn r hr)
    exact ⟨this.1, this.2, hne⟩

/-- C7 at `omit = 7` and the values 7, 1007, 5, 3 of `rand()`: the first two
are rejected and `rando` returns 5. -/
theorem rando_avoids_omit_witness :
    (∀ r ∈ [(7 : Int), 1007, 5, 3], 0 ≤ r) ∧ rando 7 [7, 1007, 5, 3] = some (5, [3])
      ∧ ((0 : Int) ≤ 5 ∧ (5 : Int) ≤ 999 ∧ (5 : Int) ≠ 7) :=
  ⟨by decide, by decide,
    (rando_avoids_omit 7 [7, 1007, 5, 3] (by decide)).1 5 [3] (by decide)⟩


/-! ## Counting matches -/

theorem matches_before_zero (a : List Int) (tgt : Int) : matches_before a tgt 0 = 0 := by
  simp [matches_before]

theorem matches_before_length (a : List Int) (tgt : Int) :
    matches_before a tgt (a.length : Int) = (a.count tgt : Nat) := by
  simp [matches_before]

theorem matches_before_mono (a : List Int) (tgt k k2 : Int) (h : k ≤ k2) :
    matches_before a tgt k ≤ matches_before a tgt k2 := by
  unfold matches_before
  exact_mod_cast (List.take_sublist_take_left a (Int.toNat_le_toNat h)).count_le tgt

theorem matches_before_succ (a : List Int) (tgt i v : Int) (h : read a i = some v) :
    matches_before a tgt (i + 1) = matches_before a tgt i + (if v = tgt then 1 else 0) := by
  unfold read at h
  by_cases h0 : 0 ≤ i
  · rw [if_pos h0] at h
    have hn : (i + 1).toNat = i.toNat + 1 := by omega
    unfold matches_before
    rw [hn, List.take_succ, h, List.count_append]
    by_cases hv : v = tgt
    · simp [hv]
    · simp [hv, List.count_cons]
  · rw [if_neg h0] at h
    exact absurd h (by simp)

theorem read_in_range (a : List Int) (i : Int) (h0 : 0 ≤ i) (h1 : i < (a.length : Int)) :
    ∃ v, read a i = some v := by
  unfold read
  rw [if_pos h0]
  have : i.toNat < a.length := by omega
  exact ⟨a[i.toNat], List.getElem?_eq_getElem this⟩

/-! ## Sums over the workers -/

theorem sum_set_local (n t : Nat) (ht : t < n) (f : Nat → local_t) (l : local_t)
    (g : Nat → local_t → Int) :
    (∑ u ∈ Finset.range n, g u (set_local f t l u))
      = (∑ u ∈ Finset.range n, g u (f u)) + (g t l - g t (f t)) := by
  have hmem : t ∈ Finset.range n := Finset.mem_range.mpr ht
  have h1 := Finset.add_sum_erase (Finset.range n) (fun u => g u (set_local f t l u)) hmem
  have h2 := Finset.add_sum_erase (Finset.range n) (fun u => g u (f u)) hmem
  have h3 : (∑ u ∈ (Finset.range n).erase t, g u (set_local f t l u))
      = ∑ u ∈ (Finset.range n).erase t, g u (f u) := by
    apply Finset.sum_congr rfl
    intro u hu
    have hne : u ≠ t := (Finset.mem_erase.mp hu).1
    simp only [set_local, hne, if_false]
  have h4 : set_local f t l t = l := by simp [set_local]
  simp only [h4] at h1
  rw [h3] at h1
  linarith

theorem contrib_bounds (a : List Int) (p : params_t) (l : local_t)
    (hl : local_inv a p l) (ho : p.offset ≤ p.offset + p.size) :
    0 ≤ contrib a p l
      ∧ contrib a p l + (if pending l.pc = true then 1 else 0)
          ≤ matches_before a p.num_search (p.offset + p.size)
            - matches_before a p.num_search p.offset := by
  obtain ⟨i, pc, tmp⟩ := l
  have hmono := matches_before_mono a p.num_search
  cases pc <;> simp only [local_inv, contrib, pending] at hl ⊢
  · have := hmono _ _ ho
    constructor <;> (simp; try omega)
  · have h1 := hmono _ _ hl.1
    have h2 := hmono _ _ hl.2
    constructor <;> (simp; try omega)
  case done =>
    subst hl
    have := hmono _ _ ho
    constructor <;> (simp; try omega)
  all_goals
    obtain ⟨hl1, hl2, hl3⟩ := hl
    have h1 := hmono _ _ hl1
    have h2 := hmono (i + 1) (p.offset + p.size) (by omega)
    have h3 := matches_before_succ a p.num_search i _ hl3
    rw [if_pos rfl] at h3
    constructor <;> (try simp) <;> omega

theorem params_num_search (size w tgt i : Int) : (main_params size w tgt i).num_search = tgt :=
  rfl

theorem nat_lt_toNat (w : Int) (t : Nat) : t < w.toNat ↔ (t : Int) < w := by omega

theorem total_matches (size w tgt : Int) (a : List Int) (hc : Cfg size w a) :
    (∑ t ∈ Finset.range w.toNat,
        (matches_before a tgt
            ((main_params size w tgt t).offset + (main_params size w tgt t).size)
          - matches_before a tgt (main_params size w tgt t).offset))
      = (a.count tgt : Nat) := by
  rw [slices_telescope size w tgt hc.one_le hc.le_size hc.size_le (matches_before a tgt),
    matches_before_zero, ← hc.length_eq, matches_before_length]
  simp

theorem counter_bounds (size w tgt : Int) (a : List Int) (s : state_t)
    (hc : Cfg size w a) (hI : Inv size w tgt a s) :
    0 ≤ s.counter ∧ s.counter ≤ (a.count tgt : Nat)
      ∧ ∀ t : Nat, (t : Int) < w → pending (s.locals t).pc = true →
          s.counter + 1 ≤ (a.count tgt : Nat) := by
  have hb : ∀ t ∈ Finset.range w.toNat,
      0 ≤ contrib a (main_params size w tgt t) (s.locals t)
      ∧ contrib a (main_params size w tgt t) (s.locals t)
          + (if pending (s.locals t).pc = true then 1 else 0)
        ≤ matches_before a tgt
            ((main_params size w tgt t).offset + (main_params size w tgt t).size)
          - matches_before a tgt (main_params size w tgt t).offset := by
    intro t ht
    have htw : (t : Int) < w := (nat_lt_toNat w t).mp (Finset.mem_range.mp ht)
    have hpb := params_bounds size w tgt t hc.one_le hc.le_size hc.size_le (by omega) htw
    exact contrib_bounds a (main_params size w tgt t) (s.locals t) (hI.locals_ok t htw) hpb.2.1
  have hsum := Finset.sum_le_sum (fun t ht => (hb t ht).2)
  rw [total_matches size w tgt a hc, Finset.sum_add_distrib, ← hI.counter_eq] at hsum
  have hpend0 : ∀ t ∈ Finset.range w.toNat,
      (0 : Int) ≤ (if pending (s.locals t).pc = true then 1 else 0) := by
    intro t _
    split <;> decide
  refine ⟨?_, ?_, ?_⟩
  · rw [hI.counter_eq]
    exact Finset.sum_nonneg (fun t ht => (hb t ht).1)
  · have := Finset.sum_nonneg hpend0
    omega
  · intro t htw hp
    have hmem : t ∈ Finset.range w.toNat := Finset.mem_range.mpr ((nat_lt_toNat w t).mpr htw)
    have h1 := Finset.single_le_sum hpend0 hmem
    rw [if_pos hp] at h1
    omega

/-! ## The invariant of the scan phase -/

theorem inv_init (size w tgt : Int) (a : List Int) : Inv size w tgt a (init_state a) where
  array_eq := rfl
  locals_ok := fun _ _ => trivial
  shared_ok := fun _ _ =>
    ⟨fun h => absurd h (by simp [init_state, in_cs]), fun h => absurd h (by simp [init_state])⟩
  owner_ok := fun _ h => absurd h (by simp [init_state])
  counter_eq := by simp [init_state, contrib]

/-- The invariant is kept by a step that replaces the local state of worker `t`
by `l2`, under local conditions on `l2` and on the change of the mutex and the
counter. -/
theorem inv_update (size w tgt : Int) (a : List Int) (s s2 : state_t) (t : Nat) (l2 : local_t)
    (ht : (t : Int) < w) (hI : Inv size w tgt a s)
    (harr : s2.array = s.array) (hloc : s2.locals = set_local s.locals t l2)
    (ha : local_inv a (main_params size w tgt t) l2)
    (hb : shared_inv s2.counter s2.lock t l2)
    (hq : (s2.lock = s.lock ∧ s2.counter = s.counter)
      ∨ ∀ u : Nat, (u : Int) < w → u ≠ t → in_cs (s.locals u).pc = false)
    (hd : s2.lock = none ∨ (s2.lock = some t ∧ in_cs l2.pc = true)
      ∨ (s2.lock = s.lock ∧ s.lock ≠ some t))
    (he : s2.counter = s.counter
      + (contrib a (main_params size w tgt t) l2
          - contrib a (main_params size w tgt t) (s.locals t))) :
    Inv size w tgt a s2 where
  array_eq := harr.trans hI.array_eq
  locals_ok := by
    intro u hu
    rw [hloc]
    by_cases hut : u = t
    · subst hut; simpa [set_local] using ha
    · simpa [set_local, hut] using hI.locals_ok u hu
  shared_ok := by
    intro u hu
    rw [hloc]
    by_cases hut : u = t
    · subst hut; simpa [set_local] using hb
    · simp only [set_local, hut, if_false]
      rcases hq with ⟨hq1, hq2⟩ | hq
      · rw [hq1, hq2]; exact hI.shared_ok u hu
      · have hcs := hq u hu hut
        refine ⟨fun h => absurd h (by simp [hcs]), fun h => ?_⟩
        rw [h] at hcs
        exact absurd hcs (by decide)
  owner_ok := by
    intro u hu
    rw [hloc]
    rcases hd with hd | ⟨hd1, hd2⟩ | ⟨hd1, hd2⟩
    · rw [hd] at hu; exact absurd hu (by simp)
    · rw [hd1] at hu
      have hut : t = u := by simpa using hu
      subst hut
      exact ⟨ht, by simpa [set_local] using hd2⟩
    · rw [hd1] at hu
      have hut : u ≠ t := by
        intro h
        rw [h] at hu
        exact hd2 hu
      simpa [set_local, hut] using hI.owner_ok u hu
  counter_eq := by
    rw [he, hloc, hI.counter_eq]
    exact (sum_set_local w.toNat t ((nat_lt_toNat w t).mpr ht) s.locals l2
      (fun u l => contrib a (main_params size w tgt u) l)).symm


theorem shared_inv_of_not_cs (c : Int) (k : Option Nat) (t : Nat) (l : local_t)
    (h : in_cs l.pc = false) : shared_inv c k t l := by
  refine ⟨fun h2 => absurd h2 (by simp [h]), fun h2 => ?_⟩
  rw [h2] at h
  exact absurd h (by decide)

theorem lock_ne_of_not_cs (size w tgt : Int) (a : List Int) (s : state_t) (t : Nat)
    (hI : Inv size w tgt a s) (h : in_cs (s.locals t).pc = false) : s.lock ≠ some t := by
  intro hk
  have := (hI.owner_ok t hk).2
  rw [h] at this
  exact absurd this (by decide)

theorem others_not_cs_of_free (size w tgt : Int) (a : List Int) (s : state_t)
    (hI : Inv size w tgt a s) (hk : s.lock = none) :
    ∀ u : Nat, (u : Int) < w → in_cs (s.locals u).pc = false := by
  intro u hu
  by_contra hcs
  have := (hI.shared_ok u hu).1 (by simpa using hcs)
  rw [hk] at this
  exact absurd this (by simp)

theorem others_not_cs_of_owner (size w tgt : Int) (a : List Int) (s : state_t) (t : Nat)
    (hI : Inv size w tgt a s) (hk : s.lock = some t) :
    ∀ u : Nat, (u : Int) < w → u ≠ t → in_cs (s.locals u).pc = false := by
  intro u hu hut
  by_contra hcs
  have := (hI.shared_ok u hu).1 (by simpa using hcs)
  rw [hk] at this
  exact hut (by simpa using this.symm)

/-- One step of worker `t` from a state that satisfies the invariant: the
invariant is kept, the counter grows by one exactly when the step is the write
of the counter, and the worker gets closer to its end unless it is done or
waits for the mutex. -/
theorem step_facts (size w tgt : Int) (a : List Int) (s : state_t) (t : Nat)
    (hc : Cfg size w a) (hI : Inv size w tgt a s) (ht : (t : Int) < w) :
    Inv size w tgt a (run_step (main_params size w tgt t) t s)
    ∧ (run_step (main_params size w tgt t) t s).counter
        = s.counter + (if (s.locals t).pc = pc_t.store then 1 else 0)
    ∧ ((∃ l2, (run_step (main_params size w tgt t) t s).locals = set_local s.locals t l2
          ∧ remaining (main_params size w tgt t) l2
              < remaining (main_params size w tgt t) (s.locals t))
        ∨ (s.locals t).pc = pc_t.done
        ∨ ((s.locals t).pc = pc_t.lock ∧ s.lock ≠ none)) := by
  have hl := hI.locals_ok t ht
  have hs := hI.shared_ok t ht
  obtain ⟨hb0, hb1, hb2⟩ :=
    params_bounds size w tgt t hc.one_le hc.le_size hc.size_le (by omega) ht
  have hsz := hc.size_le
  have hlen := hc.length_eq
  have harr := hI.array_eq
  have hns := params_num_search size w tgt t
  obtain ⟨hcnt0, hcnt1, hcnt2⟩ := counter_bounds size w tgt a s hc hI
  have hcl : ((a.count tgt : Nat) : Int) ≤ (a.length : Int) := by
    exact_mod_cast List.count_le_length tgt a
  unfold INT_MAX at hsz
  generalize hs2 : run_step (main_params size w tgt t) t s = s2
  unfold run_step at hs2
  simp only [] at hs2
  split at hs2
  next hpc =>
    -- `int i = input->offset`
    subst hs2
    have hncs : in_cs (s.locals t).pc = false := by rw [hpc]; rfl
    refine ⟨inv_update size w tgt a s _ t _ ht hI rfl rfl ⟨le_refl _, hb1⟩
      (shared_inv_of_not_cs _ _ _ _ rfl) (Or.inl ⟨rfl, rfl⟩)
      (Or.inr (Or.inr ⟨rfl, lock_ne_of_not_cs size w tgt a s t hI hncs⟩)) ?_, ?_, ?_⟩
    · simp [contrib, hpc]
    · simp [hpc]
    · refine Or.inl ⟨_, rfl, ?_⟩
      simp only [remaining, hpc]
      omega
  next hpc =>
    -- the loop test and the comparison `input->array[i] == input->num_search`
    have hncs : in_cs (s.locals t).pc = false := by rw [hpc]; rfl
    have hlk := lock_ne_of_not_cs size w tgt a s t hI hncs
    simp only [local_inv, hpc] at hl
    rw [wrap32_id _ (by omega) (by omega)] at hs2
    by_cases hlt : (s.locals t).i
        < (main_params size w tgt t).offset + (main_params size w tgt t).size
    · rw [if_pos hlt] at hs2
      obtain ⟨v, hv⟩ := read_in_range a (s.locals t).i (by omega) (by omega)
      have hvs : read s.array (s.locals t).i = some v := by rw [harr]; exact hv
      rw [hvs] at hs2
      simp only [] at hs2
      have hsucc := matches_before_succ a tgt (s.locals t).i v hv
      by_cases hvt : v = (main_params size w tgt t).num_search
      · rw [if_pos hvt] at hs2
        subst hs2
        refine ⟨inv_update size w tgt a s _ t _ ht hI rfl rfl ⟨hl.1, hlt, hvt ▸ hv⟩
          (shared_inv_of_not_cs _ _ _ _ rfl) (Or.inl ⟨rfl, rfl⟩)
          (Or.inr (Or.inr ⟨rfl, hlk⟩)) ?_, ?_, ?_⟩
        · simp [contrib, hpc]
        · simp [hpc]
        · refine Or.inl ⟨_, rfl, ?_⟩
          simp only [remaining, hpc]
          omega
      · rw [if_neg hvt, wrap32_id _ (by omega) (by omega)] at hs2
        subst hs2
        rw [hns] at hvt
        rw [if_neg hvt] at hsucc
        refine ⟨inv_update size w tgt a s _ t _ ht hI rfl rfl ?_
          (shared_inv_of_not_cs _ _ _ _ (by simp [hpc, in_cs])) (Or.inl ⟨rfl, rfl⟩)
          (Or.inr (Or.inr ⟨rfl, hlk⟩)) ?_, ?_, ?_⟩
        · simp only [local_inv, hpc]
          omega
        · simp only [contrib, hpc, hns, hsucc]
          omega
        · simp [hpc]
        · refine Or.inl ⟨_, rfl, ?_⟩
          simp only [remaining, hpc]
          omega
    · rw [if_neg hlt] at hs2
      subst hs2
      refine ⟨inv_update size w tgt a s _ t _ ht hI rfl rfl ?_
        (shared_inv_of_not_cs _ _ _ _ rfl) (Or.inl ⟨rfl, rfl⟩)
        (Or.inr (Or.inr ⟨rfl, hlk⟩)) ?_, ?_, ?_⟩
      · simp only [local_inv]
        omega
      · simp [contrib, hpc]
      · simp [hpc]
      · refine Or.inl ⟨_, rfl, ?_⟩
        simp only [remaining, hpc]
        omega
  next hpc =>
    -- `pthread_mutex_lock(input->lock)`
    simp only [local_inv, hpc] at hl
    cases hk : s.lock with
    | none =>
      rw [hk] at hs2
      simp only [] at hs2
      subst hs2
      refine ⟨inv_update size w tgt a s _ t _ ht hI rfl rfl hl
        ⟨fun _ => rfl, fun h => absurd h (by simp)⟩
        (Or.inr (fun u hu _ => others_not_cs_of_free size w tgt a s hI hk u hu))
        (Or.inr (Or.inl ⟨rfl, rfl⟩)) ?_, ?_, ?_⟩
      · simp [contrib, hpc]
      · simp [hpc]
      · refine Or.inl ⟨_, rfl, ?_⟩
        simp only [remaining, hpc]
        omega
    | some owner =>
      rw [hk] at hs2
      simp only [] at hs2
      subst hs2
      exact ⟨hI, by simp [hpc], Or.inr (Or.inr ⟨hpc, by simp [hk]⟩)⟩
  next hpc =>
    -- the read of `*(input->counter)`
    simp only [local_inv, hpc] at hl
    have hown : s.lock = some t := hs.1 (by rw [hpc]; rfl)
    subst hs2
    refine ⟨inv_update size w tgt a s _ t _ ht hI rfl rfl hl
      ⟨fun _ => hown, fun _ => rfl⟩ (Or.inl ⟨rfl, rfl⟩)
      (Or.inr (Or.inl ⟨hown, rfl⟩)) ?_, ?_, ?_⟩
    · simp [contrib, hpc]
    · simp [hpc]
    · refine Or.inl ⟨_, rfl, ?_⟩
      simp only [remaining, hpc]
      omega
  next hpc =>
    -- the write of `*(input->counter)`
    simp only [local_inv, hpc] at hl
    have hown : s.lock = some t := hs.1 (by rw [hpc]; rfl)
    have htmp : (s.locals t).tmp = s.counter := hs.2 hpc
    have hroom := hcnt2 t ht (by rw [hpc]; rfl)
    rw [htmp, wrap32_id _ (by omega) (by omega)] at hs2
    subst hs2
    refine ⟨inv_update size w tgt a s _ t _ ht hI rfl rfl hl
      ⟨fun _ => hown, fun h => absurd h (by simp)⟩
      (Or.inr (others_not_cs_of_owner size w tgt a s t hI hown))
      (Or.inr (Or.inl ⟨hown, rfl⟩)) ?_, ?_, ?_⟩
    · simp only [contrib, hpc]
      omega
    · simp [hpc]
    · refine Or.inl ⟨_, rfl, ?_⟩
      simp only [remaining, hpc]
      omega
  next hpc =>
    -- `pthread_mutex_unlock(input->lock)` and `i++`
    simp only [local_inv, hpc] at hl
    have hown : s.lock = some t := hs.1 (by rw [hpc]; rfl)
    have hsucc := matches_before_succ a tgt (s.locals t).i _ hl.2.2
    rw [hns, if_pos rfl] at hsucc
    rw [wrap32_id _ (by omega) (by omega)] at hs2
    subst hs2
    refine ⟨inv_update size w tgt a s _ t _ ht hI rfl rfl ?_
      (shared_inv_of_not_cs _ _ _ _ rfl)
      (Or.inr (others_not_cs_of_owner size w tgt a s t hI hown))
      (Or.inl rfl) ?_, ?_, ?_⟩
    · simp only [local_inv]
      omega
    · simp only [contrib, hpc, hns, hsucc]
      omega
    · simp [hpc]
    · refine Or.inl ⟨_, rfl, ?_⟩
      simp only [remaining, hpc]
      omega
  next hpc =>
    subst hs2
    exact ⟨hI, by simp [hpc], Or.inr (Or.inl hpc)⟩
  next hpc =>
    simp only [local_inv, hpc] at hl


theorem step_inv (size w tgt : Int) (a : List Int) (s : state_t) (t : Nat)
    (hc : Cfg size w a) (hI : Inv size w tgt a s) : Inv size w tgt a (step size w tgt s t) := by
  unfold step
  by_cases ht : (t : Int) < w
  · rw [if_pos ht]; exact (step_facts size w tgt a s t hc hI ht).1
  · rw [if_neg ht]; exact hI

theorem step_counter (size w tgt : Int) (a : List Int) (s : state_t) (t : Nat)
    (hc : Cfg size w a) (hI : Inv size w tgt a s) :
    (step size w tgt s t).counter
      = s.counter + (if (t : Int) < w ∧ (s.locals t).pc = pc_t.store then 1 else 0) := by
  unfold step
  by_cases ht : (t : Int) < w
  · rw [if_pos ht, (step_facts size w tgt a s t hc hI ht).2.1]
    simp [ht]
  · rw [if_neg ht]; simp [ht]

theorem exec_cons (size w tgt : Int) (s : state_t) (t : Nat) (sched : List Nat) :
    exec size w tgt s (t :: sched) = exec size w tgt (step size w tgt s t) sched :=
  rfl

theorem stores_issued_cons (size w tgt : Int) (s : state_t) (t : Nat) (ts : List Nat) :
    stores_issued size w tgt s (t :: ts)
      = (if (t : Int) < w ∧ (s.locals t).pc = pc_t.store then 1 else 0)
        + stores_issued size w tgt (step size w tgt s t) ts :=
  rfl

theorem exec_inv (size w tgt : Int) (a : List Int) (hc : Cfg size w a) (sched : List Nat) :
    ∀ s : state_t, Inv size w tgt a s → Inv size w tgt a (exec size w tgt s sched) := by
  induction sched with
  | nil => intro s hI; exact hI
  | cons t ts ih =>
    intro s hI
    rw [exec_cons]
    exact ih _ (step_inv size w tgt a s t hc hI)

theorem exec_counter (size w tgt : Int) (a : List Int) (hc : Cfg size w a) (sched : List Nat) :
    ∀ s : state_t, Inv size w tgt a s →
      (exec size w tgt s sched).counter
        = s.counter + (stores_issued size w tgt s sched : Nat) := by
  induction sched with
  | nil => intro s _; simp [exec, stores_issued]
  | cons t ts ih =>
    intro s hI
    rw [exec_cons, ih _ (step_inv size w tgt a s t hc hI), step_counter size w tgt a s t hc hI,
      stores_issued_cons]
    push_cast
    split <;> omega

theorem all_done_iff (w : Int) (s : state_t) :
    all_done w s = true ↔ ∀ t : Nat, (t : Int) < w → (s.locals t).pc = pc_t.done := by
  unfold all_done
  rw [List.all_eq_true]
  constructor
  · intro h t ht
    have := h t (List.mem_range.mpr ((nat_lt_toNat w t).mpr ht))
    simpa using this
  · intro h t ht
    have := h t ((nat_lt_toNat w t).mp (List.mem_range.mp ht))
    simpa using this

/-- When every worker is done the counter is the number of matches. -/
theorem final_count (size w tgt : Int) (a : List Int) (s : state_t)
    (hc : Cfg size w a) (hI : Inv size w tgt a s) (hd : all_done w s = true) :
    s.counter = (a.count tgt : Nat) := by
  rw [hI.counter_eq, ← total_matches size w tgt a hc]
  apply Finset.sum_congr rfl
  intro t ht
  have htw : (t : Int) < w := (nat_lt_toNat w t).mp (Finset.mem_range.mp ht)
  have hpc := (all_done_iff w s).mp hd t htw
  have hl := hI.locals_ok t htw
  simp only [local_inv, hpc] at hl
  simp only [contrib, hpc, hl, params_num_search]

theorem remaining_nonneg (a : List Int) (p : params_t) (l : local_t)
    (hl : local_inv a p l) (ho : p.offset ≤ p.offset + p.size) : 0 ≤ remaining p l := by
  obtain ⟨i, pc, tmp⟩ := l
  cases pc <;> simp only [local_inv, remaining] at hl ⊢ <;> omega

theorem total_remaining_nonneg (size w tgt : Int) (a : List Int) (s : state_t)
    (hc : Cfg size w a) (hI : Inv size w tgt a s) : 0 ≤ total_remaining size w tgt s := by
  unfold total_remaining
  apply Finset.sum_nonneg
  intro t ht
  have htw : (t : Int) < w := (nat_lt_toNat w t).mp (Finset.mem_range.mp ht)
  exact remaining_nonneg a _ _ (hI.locals_ok t htw)
    (params_bounds size w tgt t hc.one_le hc.le_size hc.size_le (by omega) htw).2.1

/-- Unless every worker is done, some worker can take a step that brings the
system closer to the end: the owner of the mutex if it is held, any worker that
is not done otherwise. -/
theorem progress (size w tgt : Int) (a : List Int) (s : state_t)
    (hc : Cfg size w a) (hI : Inv size w tgt a s) (hnd : all_done w s = false) :
    ∃ t : Nat, total_remaining size w tgt (step size w tgt s t) < total_remaining size w tgt s := by
  have hdec : ∀ t : Nat, (t : Int) < w → (s.locals t).pc ≠ pc_t.done →
      ¬ ((s.locals t).pc = pc_t.lock ∧ s.lock ≠ none) →
      total_remaining size w tgt (step size w tgt s t) < total_remaining size w tgt s := by
    intro t ht h1 h2
    rcases (step_facts size w tgt a s t hc hI ht).2.2 with ⟨l2, hloc, hlt⟩ | h | h
    · unfold step total_remaining
      rw [if_pos ht, hloc]
      have := sum_set_local w.toNat t ((nat_lt_toNat w t).mpr ht) s.locals l2
        (fun u l => remaining (main_params size w tgt u) l)
      simp only at this
      rw [this]
      omega
    · exact absurd h h1
    · exact absurd h h2
  cases hk : s.lock with
  | some u =>
    obtain ⟨hu, hcs⟩ := hI.owner_ok u hk
    refine ⟨u, hdec u hu ?_ ?_⟩
    · intro h; rw [h] at hcs; exact absurd hcs (by decide)
    · rintro ⟨h, _⟩; rw [h] at hcs; exact absurd hcs (by decide)
  | none =>
    have : ¬ ∀ t : Nat, (t : Int) < w → (s.locals t).pc = pc_t.done := by
      intro h
      rw [(all_done_iff w s).mpr h] at hnd
      exact absurd hnd (by decide)
    push_neg at this
    obtain ⟨t, ht, hpc⟩ := this
    exact ⟨t, hdec t ht hpc (fun h => h.2 hk)⟩

/-- From every state that satisfies the invariant some schedule lets every
worker finish. -/
theorem exists_complete (size w tgt : Int) (a : List Int) (hc : Cfg size w a) (n : Nat) :
    ∀ s : state_t, Inv size w tgt a s → (total_remaining size w tgt s).toNat ≤ n →
      ∃ sched : List Nat, all_done w (exec size w tgt s sched) = true := by
  induction n with
  | zero =>
    intro s hI hn
    cases hd : all_done w s with
    | true => exact ⟨[], hd⟩
    | false =>
      obtain ⟨t, ht⟩ := progress size w tgt a s hc hI hd
      have := total_remaining_nonneg size w tgt a _ hc (step_inv size w tgt a s t hc hI)
      omega
  | succ n ih =>
    intro s hI hn
    cases hd : all_done w s with
    | true => exact ⟨[], hd⟩
    | false =>
      obtain ⟨t, ht⟩ := progress size w tgt a s hc hI hd
      have hI2 := step_inv size w tgt a s t hc hI
      have := total_remaining_nonneg size w tgt a _ hc hI2
      obtain ⟨sched, hs⟩ := ih _ hI2 (by omega)
      exact ⟨t :: sched, hs⟩


/-! ## Claims about the scan -/

/-- C3: for every array of `size` elements (`size` an `int`), every target and
every worker count with `1 ≤ workers ≤ size`, some schedule lets every worker
finish, and under every schedule after which every worker has finished the
counter, started at 0, equals the number of elements equal to the target; that
number does not depend on the worker count, so two admissible worker counts
give the same final count. -/
theorem count_correct (array : List Int) (size workers num_search : Int)
    (hlen : (array.length : Int) = size) (h1 : 1 ≤ workers) (h2 : workers ≤ size)
    (h3 : size ≤ INT_MAX) :
    (∃ sched : List Nat,
        all_done workers (exec size workers num_search (init_state array) sched) = true)
    ∧ (∀ sched : List Nat,
        all_done workers (exec size workers num_search (init_state array) sched) = true →
        (exec size workers num_search (init_state array) sched).counter
          = (array.count num_search : Nat))
    ∧ (∀ (workers2 : Int) (sched sched2 : List Nat), 1 ≤ workers2 → workers2 ≤ size →
        all_done workers (exec size workers num_search (init_state array) sched) = true →
        all_done workers2 (exec size workers2 num_search (init_state array) sched2) = true →
        (exec size workers num_search (init_state array) sched).counter
          = (exec size workers2 num_search (init_state array) sched2).counter) := by
  have hc : Cfg size workers array := ⟨h1, h2, h3, hlen⟩
  have hfin : ∀ (w : Int) (sched : List Nat), Cfg size w array →
      all_done w (exec size w num_search (init_state array) sched) = true →
      (exec size w num_search (init_state array) sched).counter
        = (array.count num_search : Nat) := fun w sched hcw hd =>
    final_count size w num_search array _ hcw
      (exec_inv size w num_search array hcw sched _ (inv_init size w num_search array)) hd
  refine ⟨?_, fun sched hd => hfin workers sched hc hd, ?_⟩
  · exact exists_complete size workers num_search array hc _ _
      (inv_init size workers num_search array) (le_refl _)
  · intro workers2 sched sched2 hw1 hw2 hd hd2
    rw [hfin workers sched hc hd, hfin workers2 sched2 ⟨hw1, hw2, h3, hlen⟩ hd2]

/-- C3 on the array 7, 3, 7 with two workers and target 7, under a schedule in
which worker 1 waits for the mutex held by worker 0: the final count is 2. -/
theorem count_correct_witness :
    (([7, 3, 7] : List Int).length : Int) = 3 ∧ (1 : Int) ≤ 2 ∧ (2 : Int) ≤ 3
    ∧ (3 : Int) ≤ INT_MAX
    ∧ all_done 2 (exec 3 2 7 (init_state [7, 3, 7])
        [0, 1, 0, 1, 1, 0, 1, 1, 0, 0, 1, 0, 1, 1, 1, 1, 1, 0, 1]) = true
    ∧ (exec 3 2 7 (init_state [7, 3, 7])
        [0, 1, 0, 1, 1, 0, 1, 1, 0, 0, 1, 0, 1, 1, 1, 1, 1, 0, 1]).counter
        = ((([7, 3, 7] : List Int).count 7 : Nat) : Int) :=
  ⟨by decide, by decide, by decide, by decide, by decide,
    (count_correct [7, 3, 7] 3 2 7 (by decide) (by decide) (by decide) (by decide)).2.1
      [0, 1, 0, 1, 1, 0, 1, 1, 0, 0, 1, 0, 1, 1, 1, 1, 1, 0, 1] (by decide)⟩

/-- C8: for every configuration the range checks of `main` accept, with
`1 ≤ workers ≤ size` (`size` an `int`) and the search target equal to the omit
value, and every list of values of `rand()` on which the generation loop
completes, some schedule lets every worker finish, and under every schedule
after which every worker has finished the count is 0. -/
theorem omit_target_count_zero (size num_omit workers num_search : Int)
    (rs arr rest : List Int)
    (hacc : main_usage_error size num_omit workers num_search = false)
    (h1 : 1 ≤ workers) (h3 : size ≤ INT_MAX) (heq : num_search = num_omit)
    (hgen : main_generate num_omit size.toNat rs = some (arr, rest)) :
    (∃ sched : List Nat,
        all_done workers (exec size workers num_search (init_state arr) sched) = true)
    ∧ ∀ sched : List Nat,
        all_done workers (exec size workers num_search (init_state arr) sched) = true →
        (exec size workers num_search (init_state arr) sched).counter = 0 := by
  have h2 : workers ≤ size := by
    unfold main_usage_error at hacc
    split at hacc
    · exact absurd hacc (by simp)
    · split at hacc
      · exact absurd hacc (by simp)
      · rename_i h
        simp only [Bool.or_eq_true, decide_eq_true_eq, not_or] at h
        omega
  obtain ⟨hlen, hall, _⟩ := generate_sound num_omit size.toNat rs arr rest hgen
  have hc : Cfg size workers arr := ⟨h1, h2, h3, by omega⟩
  have hzero : arr.count num_search = 0 := by
    rw [List.count_eq_zero]
    intro hmem
    exact (hall num_search hmem).1 heq
  refine ⟨exists_complete size workers num_search arr hc _ _
      (inv_init size workers num_search arr) (le_refl _), fun sched hd => ?_⟩
  rw [final_count size workers num_search arr _ hc
    (exec_inv size workers num_search arr hc sched _ (inv_init size workers num_search arr)) hd,
    hzero]
  rfl

/-- C8 at `size = 3`, `omit = 7`, `target = 7`, two workers and the values
7, 1007, 5, 3, 7, 9 of `rand()`: the generated array is 5, 3, 9 and the count
under a schedule that lets both workers finish is 0. -/
theorem omit_target_count_zero_witness :
    main_usage_error 3 7 2 7 = false ∧ (1 : Int) ≤ 2 ∧ (3 : Int) ≤ INT_MAX
    ∧ main_generate 7 (3 : Int).toNat [7, 1007, 5, 3, 7, 9] = some ([5, 3, 9], [])
    ∧ all_done 2 (exec 3 2 7 (init_state [5, 3, 9]) [0, 1, 1, 0, 1, 0, 1]) = true
    ∧ (exec 3 2 7 (init_state [5, 3, 9]) [0, 1, 1, 0, 1, 0, 1]).counter = 0 :=
  ⟨by decide, by decide, by decide, by decide, by decide,
    (omit_target_count_zero 3 7 2 7 [7, 1007, 5, 3, 7, 9] [5, 3, 9] []
      (by decide) (by decide) (by decide) rfl (by decide)).2 [0, 1, 1, 0, 1, 0, 1] (by decide)⟩

/-- C9: in the interleaving model of the workers (`size` an `int`, an array of
`size` elements, `1 ≤ workers ≤ size`), after every schedule: a worker that
stands between its `pthread_mutex_lock` and its `pthread_mutex_unlock` (so
before its read or its write of the counter) owns the mutex, at most one
worker stands there, every step leaves the counter unchanged except the write
of the counter, which adds exactly 1, and the counter equals the number of
writes performed so far: no increment is lost. -/
theorem mutex_protects_counter (array : List Int) (size workers num_search : Int)
    (hlen : (array.length : Int) = size) (h1 : 1 ≤ workers) (h2 : workers ≤ size)
    (h3 : size ≤ INT_MAX) (sched : List Nat) :
    (∀ t : Nat, (t : Int) < workers →
        in_cs ((exec size workers num_search (init_state array) sched).locals t).pc = true →
        (exec size workers num_search (init_state array) sched).lock = some t)
    ∧ (∀ t u : Nat, (t : Int) < workers → (u : Int) < workers →
        in_cs ((exec size workers num_search (init_state array) sched).locals t).pc = true →
        in_cs ((exec size workers num_search (init_state array) sched).locals u).pc = true →
        t = u)
    ∧ (∀ t : Nat,
        (step size workers num_search
            (exec size workers num_search (init_state array) sched) t).counter
          = (exec size workers num_search (init_state array) sched).counter
            + (if (t : Int) < workers
                  ∧ ((exec size workers num_search (init_state array) sched).locals t).pc
                      = pc_t.store
                then 1 else 0))
    ∧ (exec size workers num_search (init_state array) sched).counter
        = (stores_issued size workers num_search (init_state array) sched : Nat) := by
  have hc : Cfg size workers array := ⟨h1, h2, h3, hlen⟩
  have hI := exec_inv size workers num_search array hc sched _
    (inv_init size workers num_search array)
  refine ⟨fun t ht hcs => (hI.shared_ok t ht).1 hcs, ?_, ?_, ?_⟩
  · intro t u ht hu hcst hcsu
    have e1 := (hI.shared_ok t ht).1 hcst
    have e2 := (hI.shared_ok u hu).1 hcsu
    rw [e1] at e2
    exact Option.some.inj e2
  · intro t
    exact step_counter size workers num_search array _ t hc hI
  · rw [exec_counter size workers num_search array hc sched _
      (inv_init size workers num_search array)]
    simp [init_state]

/-- C9 on the array 7, 3, 7 with two workers and target 7, after the first 11
steps of a schedule with contention: worker 0 has written once and stands
before its unlock, worker 1 waits for the mutex. -/
theorem mutex_protects_counter_witness :
    (([7, 3, 7] : List Int).length : Int) = 3 ∧ (1 : Int) ≤ 2 ∧ (2 : Int) ≤ 3
    ∧ (3 : Int) ≤ INT_MAX
    ∧ in_cs ((exec 3 2 7 (init_state [7, 3, 7])
        [0, 1, 0, 1, 1, 0, 1, 1, 0, 0, 1]).locals 0).pc = true
    ∧ (exec 3 2 7 (init_state [7, 3, 7]) [0, 1, 0, 1, 1, 0, 1, 1, 0, 0, 1]).lock = some 0
    ∧ (exec 3 2 7 (init_state [7, 3, 7]) [0, 1, 0, 1, 1, 0, 1, 1, 0, 0, 1]).counter
        = (stores_issued 3 2 7 (init_state [7, 3, 7]) [0, 1, 0, 1, 1, 0, 1, 1, 0, 0, 1] : Nat) :=
  have h := mutex_protects_counter [7, 3, 7] 3 2 7 (by decide) (by decide) (by decide)
    (by decide) [0, 1, 0, 1, 1, 0, 1, 1, 0, 0, 1]
  ⟨by decide, by decide, by decide, by decide, by decide, h.1 0 (by decide) (by decide),
    h.2.2.2⟩

/-- C10: for `1 ≤ workers ≤ size ≤ INT_MAX` and every worker index
`t < workers`, the 32-bit values of `size / workers`, `partition_size * t`,
`partition_size + size % workers` and `offset + size` (the loop bound of `run`)
equal their mathematical values, and under every schedule worker `t` never
reads outside the array: it never faults, and whenever it stands before a read
of `array[i]` (at the loop test, with `i` below the bound), `0 ≤ i < size`. -/
theorem no_overflow_no_out_of_bounds (array : List Int) (size workers num_search : Int)
    (t : Nat) (hlen : (array.length : Int) = size) (h1 : 1 ≤ workers) (h2 : workers ≤ size)
    (h3 : size ≤ INT_MAX) (ht : (t : Int) < workers) :
    partition_size size workers = Int.tdiv size workers
    ∧ (main_params size workers num_search t).offset = Int.tdiv size workers * t
    ∧ last_partition size workers = Int.tdiv size workers + Int.tmod size workers
    ∧ wrap32 ((main_params size workers num_search t).offset
          + (main_params size workers num_search t).size)
        = (main_params size workers num_search t).offset
          + (main_params size workers num_search t).size
    ∧ ∀ sched : List Nat,
        ((exec size workers num_search (init_state array) sched).locals t).pc ≠ pc_t.fault
        ∧ (((exec size workers num_search (init_state array) sched).locals t).pc = pc_t.test →
            ((exec size workers num_search (init_state array) sched).locals t).i
              < wrap32 ((main_params size workers num_search t).offset
                  + (main_params size workers num_search t).size) →
            0 ≤ ((exec size workers num_search (init_state array) sched).locals t).i
            ∧ ((exec size workers num_search (init_state array) sched).locals t).i < size
            ∧ (read (exec size workers num_search (init_state array) sched).array
                ((exec size workers num_search (init_state array) sched).locals t).i).isSome
                = true) := by
  have hc : Cfg size workers array := ⟨h1, h2, h3, hlen⟩
  obtain ⟨hq, hr0, hr1, hd, hqs, hqr⟩ := quot_facts size workers h1 h2
  obtain ⟨hb0, hb1, hb2⟩ := params_bounds size workers num_search t h1 h2 h3 (by omega) ht
  have htd : Int.tdiv size workers = size / workers := Int.tdiv_eq_ediv (by omega) (by omega)
  have htm : Int.tmod size workers = size % workers := Int.tmod_eq_emod (by omega) (by omega)
  have hwrap : wrap32 ((main_params size workers num_search t).offset
          + (main_params size workers num_search t).size)
        = (main_params size workers num_search t).offset
          + (main_params size workers num_search t).size := by
    unfold INT_MAX at h3
    exact wrap32_id _ (by omega) (by omega)
  refine ⟨?_, ?_, ?_, hwrap, ?_⟩
  · rw [htd]; exact partition_size_eq size workers h1 h2 h3
  · rw [htd]; exact params_offset_eq size workers num_search t h1 h2 h3 (by omega) ht
  · rw [htd, htm]; exact last_partition_eq size workers h1 h2 h3
  · intro sched
    have hI := exec_inv size workers num_search array hc sched _
      (inv_init size workers num_search array)
    have hl := hI.locals_ok t ht
    constructor
    · intro hpc
      simp only [local_inv, hpc] at hl
    · intro hpc hlt
      simp only [local_inv, hpc] at hl
      rw [hwrap] at hlt
      have hr := read_in_range array
        ((exec size workers num_search (init_state array) sched).locals t).i
        (by omega) (by omega)
      obtain ⟨v, hv⟩ := hr
      refine ⟨by omega, by omega, ?_⟩
      rw [hI.array_eq, hv]
      rfl

/-- C10 at `size = 10`, `workers = 3`, target 70, worker 2 (the last one), after
it has taken two steps: offset 6 and bound 10 are computed without overflow and the
worker stands before the read of `array[7]`. -/
theorem no_overflow_no_out_of_bounds_witness :
    (([1, 2, 3, 4, 5, 6, 7, 8, 9, 10] : List Int).length : Int) = 10
    ∧ (1 : Int) ≤ 3 ∧ (3 : Int) ≤ 10 ∧ (10 : Int) ≤ INT_MAX ∧ ((2 : Nat) : Int) < 3
    ∧ (main_params 10 3 70 (2 : Nat)).offset = Int.tdiv 10 3 * (2 : Nat)
    ∧ ((exec 10 3 70 (init_state [1, 2, 3, 4, 5, 6, 7, 8, 9, 10]) [2, 2]).locals 2).pc
        = pc_t.test
    ∧ ((exec 10 3 70 (init_state [1, 2, 3, 4, 5, 6, 7, 8, 9, 10]) [2, 2]).locals 2).i < 10 :=
  have h := no_overflow_no_out_of_bounds [1, 2, 3, 4, 5, 6, 7, 8, 9, 10] 10 3 70 2
    (by decide) (by decide) (by decide) (by decide) (by decide)
  ⟨by decide, by decide, by decide, by decide, by decide, h.2.1, by decide,
    ((h.2.2.2.2 [2, 2]).2 (by decide) (by decide)).2.1⟩

end ParallelSearch
